import Mathlib

/-!
Verification development for the `recommend` pipeline of the rune media-manager
CLI (`src/main.rs`).  Filesystem paths are modelled the way Rust's
`std::path` sees them on Unix: a path is an "is absolute" flag plus the list of
components produced by `Path::components()` (so separators are already split,
`.` segments are already normalized away except as a leading component of a
relative path, and `PathBuf`/`Path` equality is exactly equality of this data).
Strings inside components are ordinary Lean strings; machine floats (the
recommendation distances) are modelled by their exact rational values, with the
shortest-representation JSON rendering kept abstract as a serializer parameter.
-/

/-- One component of a filesystem path, mirroring the non-root constructors of
Rust's `std::path::Component` on Unix.  The root component is tracked
separately by the `RPath.absolute` flag. -/
inductive PathComp
  | curDir
  | parentDir
  | normal (s : String)
  deriving DecidableEq, Repr

/-- A filesystem path: the absolute flag plus the component list.  Mirrors a
Rust `PathBuf`, whose `PartialEq` compares exactly this component sequence. -/
structure RPath where
  absolute : Bool
  comps : List PathComp
  deriving DecidableEq, Repr

/-- Whether a component is a `Normal` component. -/
def PathComp.isNormal : PathComp → Bool
  | .normal _ => true
  | _ => false

/-- All components are `Normal` (no `.` or `..`): the shape of a
canonicalized path's component list. -/
def normalOnly (cs : List PathComp) : Bool := cs.all PathComp.isNormal

/-- Rendering of one component, as `Path::display` shows it. -/
def PathComp.str : PathComp → String
  | .curDir => "."
  | .parentDir => ".."
  | .normal s => s

/-- `Path::display`: components joined with `/`, with a leading `/` for an
absolute path. -/
def RPath.render (p : RPath) : String :=
  (if p.absolute then "/" else "") ++ String.intercalate "/" (p.comps.map PathComp.str)

/-- Rust `PathBuf::join`/`push` (Unix): an absolute argument replaces the whole
path, a relative argument is appended componentwise. -/
def RPath.joinPath (p q : RPath) : RPath :=
  if q.absolute then q else ⟨p.absolute, p.comps ++ q.comps⟩

/-- Joining a relative component list onto a path (Rust `join` with a relative
string argument, the string already split into components). -/
def RPath.joinComps (p : RPath) (cs : List PathComp) : RPath :=
  ⟨p.absolute, p.comps ++ cs⟩

/-- Rust `Path::parent`, on paths where it is `Some`: drop the last component.
(The source unwraps the `Option`; the root-path panic case is outside the
states exercised here, where the path always has at least one component.) -/
def RPath.parent (p : RPath) : RPath := ⟨p.absolute, p.comps.dropLast⟩

/-- Split a file name at its last `.`: returns `(before, after)` for the last
dot, or `none` when the name has no dot.  This is the primitive underlying
Rust's `Path::extension` / `file_stem`. -/
def extSplit : List Char → Option (List Char × List Char)
  | [] => none
  | c :: cs =>
    match extSplit cs with
    | some (b, a) => some (c :: b, a)
    | none => if c = '.' then some ([], cs) else none

/-- Rust `file_stem` on a file name: the part before the last dot, or the whole
name when there is no dot or the only dot is leading. -/
def stemL (cs : List Char) : List Char :=
  match extSplit cs with
  | some (b, _) => if b = [] then cs else b
  | none => cs

/-- Rust `Path::extension` restricted to a file name: the part after the last
dot, unless there is no dot or the part before the last dot is empty (a name
like `.gitignore`), in which case there is no extension. -/
def fnExtension (s : String) : Option String :=
  match extSplit s.toList with
  | some (b, a) => if b = [] then none else some (String.mk a)
  | none => none

/-- The file-name rewrite done by Rust `PathBuf::set_extension`: keep the stem
and append `.` and the new extension (just the stem when the new extension is
empty). -/
def fnSetExt (s e : String) : String :=
  if e.toList = [] then String.mk (stemL s.toList)
  else String.mk (stemL s.toList ++ '.' :: e.toList)

/-- Rust `Path::file_name`: the last component when it is a `Normal`
component, otherwise none. -/
def RPath.fileName (p : RPath) : Option String :=
  match p.comps.getLast? with
  | some (.normal s) => some s
  | _ => none

/-- Rust `Path::extension`: the extension of the file name, if any. -/
def RPath.extension (p : RPath) : Option String :=
  match p.comps.getLast? with
  | some (.normal s) => fnExtension s
  | _ => none

/-- Rust `PathBuf::set_extension`: rewrite the last component's file name; a
no-op when the path has no file name. -/
def RPath.setExtension (p : RPath) (e : String) : RPath :=
  match p.comps.getLast? with
  | some (.normal s) => ⟨p.absolute, p.comps.dropLast ++ [.normal (fnSetExt s e)]⟩
  | _ => p

/-- `check_and_correct_extension` from `src/main.rs` lines 301-309: if the
path's extension (compared case-sensitively) differs from the expected one,
replace it via `set_extension`; otherwise return the path unchanged. -/
def check_and_correct_extension (p : RPath) (e : String) : RPath :=
  if p.extension ≠ some e then p.setExtension e else p

/-- The component-walking loop of `pathdiff::diff_paths` (the crate the m3u8
branch uses), with `acc` the `comps` accumulator: strips the common prefix,
then pairs remaining base components with `..`, failing when the base still
holds a `..` of its own. -/
def diffLoop (acc pa pb : List PathComp) : Option (List PathComp) :=
  match pa, pb with
  | [], [] => some acc
  | a :: ra, [] => some (acc ++ a :: ra)
  | [], _ :: rb => diffLoop (acc ++ [.parentDir]) [] rb
  | a :: ra, b :: rb =>
    if acc = [] ∧ a = b then diffLoop acc ra rb
    else if b = .curDir then diffLoop (acc ++ [a]) ra rb
    else if b = .parentDir then none
    else some (acc ++ .parentDir :: ((rb.map fun _ => PathComp.parentDir) ++ a :: ra))

/-- `pathdiff::diff_paths path base`: when the two paths' absoluteness
differs, the result is `path` itself if absolute and `none` if relative;
otherwise the component walk runs and yields a relative path. -/
def diff_paths (path base : RPath) : Option RPath :=
  if path.absolute = base.absolute then
    (diffLoop [] path.comps base.comps).map fun cs => ⟨false, cs⟩
  else if path.absolute then some path
  else none

/-- Closed form of the `diff_paths` walk on dot-free component lists: strip the
common prefix, then one `..` per remaining base component followed by the
remaining target components. -/
def diffNormals : List PathComp → List PathComp → List PathComp
  | ta, [] => ta
  | [], _ :: rb => .parentDir :: diffNormals [] rb
  | a :: ra, b :: rb =>
    if a = b then diffNormals ra rb
    else .parentDir :: ((rb.map fun _ => PathComp.parentDir) ++ a :: ra)

/-- Stack-based path normalization: `.` is dropped, `..` pops the last entry
(staying at the root when empty, as the filesystem root does). -/
def normGo (acc : List PathComp) : List PathComp → List PathComp
  | [] => acc
  | .curDir :: r => normGo acc r
  | .parentDir :: r => normGo acc.dropLast r
  | .normal s :: r => normGo (acc ++ [.normal s]) r

/-- Normal form of an absolute path's component list. -/
def normAbs (cs : List PathComp) : List PathComp := normGo [] cs

/-- Apply `List.dropLast` `n` times. -/
def popN : Nat → List PathComp → List PathComp
  | 0, l => l
  | n + 1, l => popN n l.dropLast

/-- A row of the `files` metadata table as the pipeline consumes it:
`id` is the store's `i32` key, `directory` the library-relative directory
(already split into components), `file_name` the file's name. -/
structure FileRecord where
  id : Int
  directory : List PathComp
  file_name : String
  deriving DecidableEq, Repr

/-- A file creation plus the bytes written to it. -/
structure FileWrite where
  path : RPath
  contents : String
  deriving DecidableEq, Repr

/-- The `as i32` cast applied to a recommendation id on `src/main.rs` line 165:
reduce modulo 2^32 and reinterpret as a signed 32-bit value. -/
def i32cast (n : Nat) : Int :=
  let m := n % 4294967296
  if m < 2147483648 then (m : Int) else (m : Int) - 4294967296

/-- The id list handed to the metadata join (`src/main.rs` line 165):
each recommendation id cast with `as i32`, in retrieval order. -/
def joinIds (recs : List (Nat × Rat)) : List Int :=
  recs.map fun p => i32cast p.1

/-- serde_json's serialization of one `(id, distance)` tuple: a two-element
JSON array, with the distance rendered by the float serializer `dser`. -/
def serializePair (dser : Rat → String) (p : Nat × Rat) : String :=
  "[" ++ toString p.1 ++ "," ++ dser p.2 ++ "]"

/-- serde_json's compact `to_string` of `json!(recommendations)`
(`src/main.rs` line 198/207): a JSON array of the serialized tuples, in the
vector's order, comma-separated with no whitespace. -/
def jsonBytes (dser : Rat → String) (recs : List (Nat × Rat)) : String :=
  "[" ++ String.intercalate "," (recs.map (serializePair dser)) ++ "]"

/-- Result of the JSON rendering branch. -/
inductive JsonResult
  | usageError
  | ok (warned : Bool) (write : FileWrite)
  deriving DecidableEq, Repr

/-- The file writes the JSON branch performed. -/
def JsonResult.writes : JsonResult → List FileWrite
  | .usageError => []
  | .ok _ fw => [fw]

/-- The JSON rendering branch (`src/main.rs` lines 175-213): require an output
path, normalize its extension after joining it onto the canonicalized library
root, warn when the corrected path differs from the raw supplied output path,
and write the serialized raw recommendation list.  The joined file metadata is
in scope (`_files`) but never consulted. -/
def jsonBranch (canonRoot : RPath) (output : Option RPath) (recs : List (Nat × Rat))
    (dser : Rat → String) (_files : List FileRecord) : JsonResult :=
  match output with
  | none => .usageError
  | some out =>
    let corrected := check_and_correct_extension (canonRoot.joinPath out) "json"
    JsonResult.ok (decide (corrected ≠ out)) ⟨corrected, jsonBytes dser recs⟩

/-- Result of the M3U8 rendering branch.  `aborted` is the relative-path
failure: the file exists and holds what was written before the failure. -/
inductive M3U8Result
  | usageError
  | aborted (warned : Bool) (write : FileWrite)
  | ok (warned : Bool) (write : FileWrite)
  deriving DecidableEq, Repr

/-- The file writes the M3U8 branch performed. -/
def M3U8Result.writes : M3U8Result → List FileWrite
  | .usageError => []
  | .aborted _ fw => [fw]
  | .ok _ fw => [fw]

/-- `path.join(&file_info.directory).join(&file_info.file_name)`
(`src/main.rs` lines 251-252 and 284-285): the library path handed on the
command line, joined with the record's directory and file name. -/
def targetOf (libPath : RPath) (f : FileRecord) : RPath :=
  (libPath.joinComps f.directory).joinComps [.normal f.file_name]

/-- The M3U8 playlist body loop (`src/main.rs` lines 250-268): for each file
record, in the order of the `files` list, relativize the target against the
output file's parent and write one line; stop with failure when `diff_paths`
returns `None`.  Returns the bytes written after the header and whether the
loop completed. -/
def m3u8Body (libPath base : RPath) : List FileRecord → String × Bool
  | [] => ("", true)
  | f :: rest =>
    match diff_paths (targetOf libPath f) base with
    | none => ("", false)
    | some rel =>
      let r := m3u8Body libPath base rest
      (rel.render ++ "\n" ++ r.1, r.2)

/-- The M3U8 rendering branch (`src/main.rs` lines 214-271): require an output
path, normalize its extension after joining onto the canonicalized root, warn
when the corrected path differs from the raw supplied path, write the
`#EXTM3U` header and then the body loop. -/
def m3u8Branch (canonRoot libPath : RPath) (output : Option RPath)
    (files : List FileRecord) : M3U8Result :=
  match output with
  | none => .usageError
  | some out =>
    let corrected := check_and_correct_extension (canonRoot.joinPath out) "m3u8"
    let warned := decide (corrected ≠ out)
    let body := m3u8Body libPath corrected.parent files
    if body.2 then .ok warned ⟨corrected, "#EXTM3U\n" ++ body.1⟩
    else .aborted warned ⟨corrected, "#EXTM3U\n" ++ body.1⟩

/-- The parent directory of the playlist file the m3u8 branch writes to. -/
def baseOf (canonRoot out : RPath) : RPath :=
  (check_and_correct_extension (canonRoot.joinPath out) "m3u8").parent

/-- Concatenation of a list of strings. -/
def concatAll : List String → String
  | [] => ""
  | s :: r => s ++ concatAll r

/-- Modelled from the spec: the playlist lines the specification promises —
for every recommendation entry with a resolved file record, in retrieval
order, the relativized path line.  (The retrieval-order rendering itself is
not in the visible source; the source loop runs in `files` order.) -/
def specRetrievalLines (recs : List (Nat × Rat)) (files : List FileRecord)
    (libPath base : RPath) : List String :=
  recs.filterMap fun e =>
    (files.find? fun f => f.id == i32cast e.1).map fun fi =>
      ((diff_paths (targetOf libPath fi) base).getD ⟨false, []⟩).render ++ "\n"

/-- Rust `format!("{:0>5}", id)`: decimal form left-padded with `0` to width
five (longer numerals are kept whole). -/
def fmt05 (n : Nat) : String :=
  let s := toString n
  if s.length < 5 then String.mk (List.replicate (5 - s.length) '0') ++ s else s

/-- Round a rational to the nearest integer, ties to even — the rounding Rust's
float formatting applies to the float's exact value. -/
def rhe (q : Rat) : Int :=
  let n := q.floor
  let r := q - (n : Rat)
  if 2 * r < 1 then n else if 1 < 2 * r then n + 1 else if n % 2 = 0 then n else n + 1

/-- The decimal digit character for `k`. -/
def dch (k : Nat) : Char := Char.ofNat (48 + k)

/-- The four zero-padded decimal digits of `m % 10000`. -/
def pad4 (m : Nat) : String :=
  String.mk [dch (m / 1000 % 10), dch (m / 100 % 10), dch (m / 10 % 10), dch (m % 10)]

/-- Rust `format!("{:.4}", d)` for a non-negative value: round the exact value
to four decimal places and print the integer part, a dot, and exactly four
fraction digits. -/
def fmt4abs (d : Rat) : String :=
  let n := (rhe (d * 10000)).toNat
  toString (n / 10000) ++ "." ++ pad4 (n % 10000)

/-- Rust `format!("{:.4}", d)` on the float's exact rational value. -/
def fmt4 (d : Rat) : String :=
  if d < 0 then "-" ++ fmt4abs (-d) else fmt4abs d

/-- The table branch (`src/main.rs` lines 275-295): iterate the
recommendations in retrieval order, look up each id (cast with `as i32`) in
the `files` list, and render a row for every entry whose record is found;
the branch performs no file writes (second component). -/
def tableBranch (libPath : RPath) (recs : List (Nat × Rat)) (files : List FileRecord) :
    List (String × String × String) × List FileWrite :=
  (recs.filterMap fun e =>
      (files.find? fun f => f.id == i32cast e.1).map fun fi =>
        (fmt05 e.1, fmt4 e.2, (targetOf libPath fi).render),
   [])

/-- Every `Normal` component carries a nonempty name — true of every component
list Rust's `Path::components` can produce, since empty components cannot
occur in a path string. -/
def nonEmptyNames (cs : List PathComp) : Bool :=
  cs.all fun c =>
    match c with
    | .normal s => s != ""
    | _ => true

theorem normalOnly_cons {c : PathComp} {cs : List PathComp} :
    normalOnly (c :: cs) = true ↔ (c.isNormal = true ∧ normalOnly cs = true) := by
  simp [normalOnly, List.all_cons]

theorem normalOnly_append {l₁ l₂ : List PathComp} :
    normalOnly (l₁ ++ l₂) = true ↔ (normalOnly l₁ = true ∧ normalOnly l₂ = true) := by
  simp [normalOnly, List.all_append]

theorem normalOnly_dropLast {l : List PathComp} (h : normalOnly l = true) :
    normalOnly l.dropLast = true := by
  rw [normalOnly, List.all_eq_true] at h ⊢
  exact fun x hx => h x ((List.dropLast_sublist l).subset hx)

theorem normGo_append (acc xs ys : List PathComp) :
    normGo acc (xs ++ ys) = normGo (normGo acc xs) ys := by
  induction xs generalizing acc with
  | nil => rfl
  | cons c r ih => cases c <;> simp [normGo, ih]

theorem normGo_normals (acc : List PathComp) {xs : List PathComp}
    (h : normalOnly xs = true) : normGo acc xs = acc ++ xs := by
  induction xs generalizing acc with
  | nil => simp [normGo]
  | cons c r ih =>
    obtain ⟨hc, hr⟩ := normalOnly_cons.mp h
    cases c with
    | normal s => rw [normGo, ih _ hr]; simp
    | curDir => simp [PathComp.isNormal] at hc
    | parentDir => simp [PathComp.isNormal] at hc

theorem normGo_replicate (n : Nat) (acc : List PathComp) :
    normGo acc (List.replicate n .parentDir) = popN n acc := by
  induction n generalizing acc with
  | zero => rfl
  | succ n ih => rw [List.replicate_succ, normGo, popN]; exact ih _

theorem popN_length : ∀ (n : Nat) (l : List PathComp), l.length = n → popN n l = []
  | 0, l, h => by rw [List.length_eq_zero] at h; rw [h]; rfl
  | n + 1, l, h => by
    rw [popN]
    exact popN_length n l.dropLast (by rw [List.length_dropLast, h]; omega)

theorem popN_cons (n : Nat) (b : PathComp) (rb : List PathComp) (h : n ≤ rb.length) :
    popN n (b :: rb) = b :: popN n rb := by
  induction n generalizing rb with
  | zero => rfl
  | succ n ih =>
    cases rb with
    | nil => simp at h
    | cons x xs =>
      rw [popN, List.dropLast_cons₂]
      rw [show popN (n + 1) (x :: xs) = popN n (x :: xs).dropLast from rfl]
      exact ih (x :: xs).dropLast (by simpa [List.length_dropLast] using Nat.le_of_succ_le_succ h)

theorem diffLoop_nil_left (rb : List PathComp) : ∀ acc : List PathComp,
    diffLoop acc [] rb = some (acc ++ List.replicate rb.length .parentDir) := by
  induction rb with
  | nil => intro acc; simp [diffLoop]
  | cons b rb ih =>
    intro acc
    rw [show diffLoop acc [] (b :: rb) = diffLoop (acc ++ [PathComp.parentDir]) [] rb from rfl]
    rw [ih]
    simp [List.length_cons, List.replicate_succ, List.append_assoc]

theorem diffNormals_nil (tb : List PathComp) :
    diffNormals [] tb = List.replicate tb.length .parentDir := by
  induction tb with
  | nil => rfl
  | cons b rb ih =>
    rw [show diffNormals [] (b :: rb) = .parentDir :: diffNormals [] rb from rfl]
    rw [ih]
    simp [List.length_cons, List.replicate_succ]

theorem diffLoop_eq_diffNormals :
    ∀ (tb ta : List PathComp), normalOnly tb = true →
      diffLoop [] ta tb = some (diffNormals ta tb) := by
  intro tb
  induction tb with
  | nil =>
    intro ta _
    cases ta with
    | nil => rfl
    | cons a ra => simp [diffLoop, diffNormals]
  | cons b rb ih =>
    intro ta h
    obtain ⟨hb, hrb⟩ := normalOnly_cons.mp h
    cases ta with
    | nil =>
      rw [show diffLoop [] [] (b :: rb) = diffLoop ([] ++ [PathComp.parentDir]) [] rb from rfl]
      rw [diffLoop_nil_left rb]
      rw [diffNormals_nil (b :: rb)]
      simp [List.length_cons, List.replicate_succ]
    | cons a ra =>
      by_cases hab : a = b
      · subst hab
        rw [show diffLoop [] (a :: ra) (a :: rb)
              = if ([] : List PathComp) = [] ∧ a = a then diffLoop [] ra rb
                else if a = .curDir then diffLoop ([] ++ [a]) ra rb
                else if a = .parentDir then none
                else some ([] ++ .parentDir :: ((rb.map fun _ => PathComp.parentDir) ++ a :: ra))
            from rfl]
        rw [if_pos ⟨rfl, rfl⟩]
        rw [show diffNormals (a :: ra) (a :: rb)
              = if a = a then diffNormals ra rb
                else .parentDir :: ((rb.map fun _ => PathComp.parentDir) ++ a :: ra) from rfl]
        rw [if_pos rfl]
        exact ih ra hrb
      · cases b with
        | normal s =>
          rw [show diffLoop [] (a :: ra) (.normal s :: rb)
                = if ([] : List PathComp) = [] ∧ a = .normal s then diffLoop [] ra rb
                  else if PathComp.normal s = .curDir then diffLoop ([] ++ [a]) ra rb
                  else if PathComp.normal s = .parentDir then none
                  else some ([] ++ .parentDir :: ((rb.map fun _ => PathComp.parentDir) ++ a :: ra))
              from rfl]
          rw [if_neg (by simp [hab]), if_neg (by simp), if_neg (by simp)]
          rw [show diffNormals (a :: ra) (.normal s :: rb)
                = if a = .normal s then diffNormals ra rb
                  else .parentDir :: ((rb.map fun _ => PathComp.parentDir) ++ a :: ra) from rfl]
          rw [if_neg hab]
          simp
        | curDir => simp [PathComp.isNormal] at hb
        | parentDir => simp [PathComp.isNormal] at hb

theorem diffNormals_shape :
    ∀ (tb ta : List PathComp), normalOnly ta = true → normalOnly tb = true →
      ∃ n s, diffNormals ta tb = List.replicate n .parentDir ++ s
        ∧ n ≤ tb.length ∧ normalOnly s = true := by
  intro tb
  induction tb with
  | nil =>
    intro ta ha _
    exact ⟨0, ta, by cases ta <;> simp [diffNormals], by simp, ha⟩
  | cons b rb ih =>
    intro ta ha h
    obtain ⟨hb, hrb⟩ := normalOnly_cons.mp h
    cases ta with
    | nil =>
      refine ⟨(b :: rb).length, [], ?_, le_refl _, rfl⟩
      rw [diffNormals_nil]
      simp
    | cons a ra =>
      obtain ⟨hA, hra⟩ := normalOnly_cons.mp ha
      by_cases hab : a = b
      · obtain ⟨n, s, h1, h2, h3⟩ := ih ra hra hrb
        refine ⟨n, s, ?_, by simp [List.length_cons]; omega, h3⟩
        rw [show diffNormals (a :: ra) (b :: rb)
              = if a = b then diffNormals ra rb
                else .parentDir :: ((rb.map fun _ => PathComp.parentDir) ++ a :: ra) from rfl]
        rw [if_pos hab]
        exact h1
      · refine ⟨rb.length + 1, a :: ra, ?_, by simp [List.length_cons], ?_⟩
        · rw [show diffNormals (a :: ra) (b :: rb)
                = if a = b then diffNormals ra rb
                  else .parentDir :: ((rb.map fun _ => PathComp.parentDir) ++ a :: ra) from rfl]
          rw [if_neg hab]
          simp [List.map_const', List.replicate_succ]
        · exact ha

theorem diffNormals_rejoin :
    ∀ (tb ta : List PathComp), normalOnly ta = true → normalOnly tb = true →
      normGo tb (diffNormals ta tb) = ta := by
  intro tb
  induction tb with
  | nil =>
    intro ta ha _
    have : diffNormals ta [] = ta := by cases ta <;> rfl
    rw [this]
    rw [normGo_normals [] ha]
    simp
  | cons b rb ih =>
    intro ta ha h
    obtain ⟨hb, hrb⟩ := normalOnly_cons.mp h
    cases ta with
    | nil =>
      rw [diffNormals_nil, normGo_replicate]
      exact popN_length _ _ rfl
    | cons a ra =>
      obtain ⟨hA, hra⟩ := normalOnly_cons.mp ha
      by_cases hab : a = b
      · subst hab
        have IH := ih ra hra hrb
        obtain ⟨n, s, hshape, hn, hs⟩ := diffNormals_shape rb ra hra hrb
        rw [show diffNormals (a :: ra) (a :: rb)
              = if a = a then diffNormals ra rb
                else .parentDir :: ((rb.map fun _ => PathComp.parentDir) ++ a :: ra) from rfl]
        rw [if_pos rfl, hshape]
        rw [hshape] at IH
        rw [normGo_append, normGo_replicate, normGo_normals _ hs] at IH ⊢
        rw [popN_cons n a rb hn]
        rw [List.cons_append, IH]
      · rw [show diffNormals (a :: ra) (b :: rb)
              = if a = b then diffNormals ra rb
                else .parentDir :: ((rb.map fun _ => PathComp.parentDir) ++ a :: ra) from rfl]
        rw [if_neg hab]
        have : (PathComp.parentDir :: ((rb.map fun _ => PathComp.parentDir) ++ a :: ra))
            = List.replicate (b :: rb).length .parentDir ++ (a :: ra) := by
          simp [List.map_const', List.length_cons, List.replicate_succ]
        rw [this, normGo_append, normGo_replicate]
        rw [popN_length _ _ rfl]
        rw [normGo_normals [] ha]
        simp

theorem diff_paths_correct (ta tb : List PathComp)
    (ha : normalOnly ta = true) (hb : normalOnly tb = true) :
    diff_paths ⟨true, ta⟩ ⟨true, tb⟩ = some ⟨false, diffNormals ta tb⟩
    ∧ normAbs (tb ++ diffNormals ta tb) = ta := by
  constructor
  · simp [diff_paths, diffLoop_eq_diffNormals tb ta hb]
  · rw [normAbs, normGo_append, normGo_normals [] hb]
    simpa using diffNormals_rejoin tb ta ha hb

theorem extSplit_noDot : ∀ cs : List Char, '.' ∉ cs → extSplit cs = none := by
  intro cs
  induction cs with
  | nil => intro _; rfl
  | cons c r ih =>
    intro h
    rw [show extSplit (c :: r)
          = (match extSplit r with
             | some (b, a) => some (c :: b, a)
             | none => if c = '.' then some ([], r) else none) from rfl]
    rw [ih (fun hc => h (List.mem_cons_of_mem c hc))]
    simp only
    rw [if_neg (by intro hc; subst hc; exact h (List.mem_cons_self _ _))]

theorem extSplit_append_dot : ∀ (b : List Char) (e : List Char), '.' ∉ e →
    extSplit (b ++ '.' :: e) = some (b, e) := by
  intro b e he
  induction b with
  | nil =>
    rw [List.nil_append]
    rw [show extSplit ('.' :: e)
          = (match extSplit e with
             | some (b, a) => some ('.' :: b, a)
             | none => if '.' = '.' then some ([], e) else none) from rfl]
    rw [extSplit_noDot e he]
    simp
  | cons c r ih =>
    rw [List.cons_append]
    rw [show extSplit (c :: (r ++ '.' :: e))
          = (match extSplit (r ++ '.' :: e) with
             | some (b, a) => some (c :: b, a)
             | none => if c = '.' then some ([], r ++ '.' :: e) else none) from rfl]
    rw [ih]

theorem stemL_ne_nil (cs : List Char) (h : cs ≠ []) : stemL cs ≠ [] := by
  rw [stemL]
  cases hs : extSplit cs with
  | none => exact h
  | some p =>
    obtain ⟨b, a⟩ := p
    by_cases hb : b = [] <;> simp [hb, h]

theorem toList_ne_nil {s : String} (h : s ≠ "") : s.toList ≠ [] := by
  intro hc
  exact h (String.ext hc)

theorem fnExtension_setExt (s e : String) (hs : s.toList ≠ []) (he : e ≠ "")
    (hd : '.' ∉ e.toList) : fnExtension (fnSetExt s e) = some e := by
  rw [fnSetExt, if_neg (toList_ne_nil he)]
  rw [fnExtension]
  rw [show (String.mk (stemL s.toList ++ '.' :: e.toList)).toList
        = stemL s.toList ++ '.' :: e.toList from rfl]
  rw [extSplit_append_dot _ _ hd]
  simp only
  rw [if_neg (stemL_ne_nil _ hs)]
  rfl

theorem diff_paths_normals (p b : RPath) (hp : p.absolute = true) (hb : b.absolute = true)
    (hnb : normalOnly b.comps = true) :
    diff_paths p b = some ⟨false, diffNormals p.comps b.comps⟩ := by
  rw [diff_paths, hp, hb, if_pos rfl, diffLoop_eq_diffNormals _ _ hnb]
  rfl

theorem normalOnly_getLast {cs : List PathComp} (h : normalOnly cs = true) (hne : cs ≠ []) :
    ∃ s, cs.getLast? = some (.normal s) := by
  obtain ⟨c, hc⟩ := Option.isSome_iff_exists.mp (List.getLast?_isSome.mpr hne)
  have hmem : c ∈ cs := by
    have := List.dropLast_append_getLast? c hc
    rw [← this]
    simp
  have := (List.all_eq_true.mp h) c hmem
  cases c with
  | normal s => exact ⟨s, hc⟩
  | curDir => simp [PathComp.isNormal] at this
  | parentDir => simp [PathComp.isNormal] at this

theorem cc_shape (j : RPath) (e s : String) (hl : j.comps.getLast? = some (.normal s)) :
    ∃ s2, check_and_correct_extension j e = ⟨j.absolute, j.comps.dropLast ++ [.normal s2]⟩ := by
  rw [check_and_correct_extension]
  by_cases hx : j.extension = some e
  · rw [if_neg (by simpa using hx)]
    refine ⟨s, ?_⟩
    have hj : j.comps.dropLast ++ [PathComp.normal s] = j.comps :=
      List.dropLast_append_getLast? _ hl
    rw [hj]
  · rw [if_pos hx, RPath.setExtension, hl]
    exact ⟨fnSetExt s e, rfl⟩

theorem joinPath_absolute (root out : RPath) (h : root.absolute = true) :
    (root.joinPath out).absolute = true := by
  rw [RPath.joinPath]
  by_cases habs : out.absolute <;> simp [habs, h]

theorem joinPath_normalOnly (root out : RPath) (h1 : normalOnly root.comps = true)
    (h2 : normalOnly out.comps = true) : normalOnly (root.joinPath out).comps = true := by
  rw [RPath.joinPath]
  by_cases habs : out.absolute <;> simp [habs, normalOnly_append, h1, h2]

theorem joinPath_ne_nil (root out : RPath) (h : out.comps ≠ []) :
    (root.joinPath out).comps ≠ [] := by
  rw [RPath.joinPath]
  by_cases habs : out.absolute <;> simp [habs, h]

theorem joinPath_getLast (root out : RPath) (h : out.comps ≠ []) :
    (root.joinPath out).comps.getLast? = out.comps.getLast? := by
  rw [RPath.joinPath]
  by_cases habs : out.absolute <;> simp [habs, List.getLast?_append_of_ne_nil _ h]

theorem baseOf_eq (root out : RPath) (hroot : root.absolute = true)
    (h1 : normalOnly root.comps = true) (h2 : normalOnly out.comps = true)
    (hne : out.comps ≠ []) :
    baseOf root out = ⟨true, (root.joinPath out).comps.dropLast⟩
    ∧ normalOnly (root.joinPath out).comps.dropLast = true := by
  obtain ⟨s, hs⟩ := normalOnly_getLast h2 hne
  obtain ⟨s2, hcc⟩ := cc_shape (root.joinPath out) "m3u8" s
    (by rw [joinPath_getLast root out hne]; exact hs)
  constructor
  · rw [baseOf, hcc, RPath.parent]
    simp [List.dropLast_concat, joinPath_absolute root out hroot]
  · exact normalOnly_dropLast (joinPath_normalOnly root out h1 h2)

theorem m3u8Body_ok (libPath base : RPath) (hl : libPath.absolute = true)
    (hb : base.absolute = true) (hnb : normalOnly base.comps = true) :
    ∀ files : List FileRecord, (∀ f ∈ files, normalOnly f.directory = true) →
      m3u8Body libPath base files
        = (concatAll (files.map fun f =>
            RPath.render ⟨false, diffNormals (targetOf libPath f).comps base.comps⟩ ++ "\n"),
           true) := by
  intro files
  induction files with
  | nil => intro _; rfl
  | cons f rest ih =>
    intro h
    have hdir : normalOnly f.directory = true := h f (List.mem_cons_self _ _)
    have habs : (targetOf libPath f).absolute = true := by
      simp [targetOf, RPath.joinComps, hl]
    have hd : diff_paths (targetOf libPath f) base
        = some ⟨false, diffNormals (targetOf libPath f).comps base.comps⟩ :=
      diff_paths_normals _ _ habs hb hnb
    simp only [m3u8Body, hd]
    rw [ih (fun g hg => h g (List.mem_cons_of_mem f hg))]
    simp [concatAll, String.append_assoc]

theorem targetOf_comps (libPath : RPath) (f : FileRecord) :
    (targetOf libPath f).comps = libPath.comps ++ f.directory ++ [.normal f.file_name] := by
  simp [targetOf, RPath.joinComps]

theorem targetOf_normalOnly (libPath : RPath) (f : FileRecord)
    (hnl : normalOnly libPath.comps = true) (hdir : normalOnly f.directory = true) :
    normalOnly (targetOf libPath f).comps = true := by
  rw [targetOf_comps]
  exact normalOnly_append.mpr ⟨normalOnly_append.mpr ⟨hnl, hdir⟩, rfl⟩

theorem pad4_props (m : Nat) :
    (pad4 m).length = 4 ∧ (∀ c ∈ (pad4 m).toList, c.isDigit = true)
    ∧ '.' ∉ (pad4 m).toList := by
  have h10 : ∀ k, k < 10 → (dch k).isDigit = true ∧ ¬ dch k = '.' := by decide
  have htl : (pad4 m).toList
      = [dch (m / 1000 % 10), dch (m / 100 % 10), dch (m / 10 % 10), dch (m % 10)] := rfl
  refine ⟨rfl, ?_, ?_⟩
  · intro c hc
    rw [htl] at hc
    simp only [List.mem_cons, List.not_mem_nil, or_false] at hc
    rcases hc with h | h | h | h <;>
      · rw [h]; exact (h10 _ (Nat.mod_lt _ (by norm_num))).1
  · intro hc
    rw [htl] at hc
    simp only [List.mem_cons, List.not_mem_nil, or_false] at hc
    rcases hc with h | h | h | h <;>
      exact (h10 _ (Nat.mod_lt _ (by norm_num))).2 h.symm

theorem fmt4_shape (d : Rat) :
    ∃ a b, fmt4 d = a ++ "." ++ b ∧ b.length = 4
    ∧ (∀ c ∈ b.toList, c.isDigit = true) ∧ '.' ∉ b.toList := by
  rw [fmt4]
  by_cases hd : d < 0
  · rw [if_pos hd]
    obtain ⟨h1, h2, h3⟩ := pad4_props (((rhe (-d * 10000)).toNat) % 10000)
    refine ⟨"-" ++ toString ((rhe (-d * 10000)).toNat / 10000), pad4 _, ?_, h1, h2, h3⟩
    rw [fmt4abs]
    exact (String.append_assoc _ _ _).symm
  · rw [if_neg hd]
    obtain ⟨h1, h2, h3⟩ := pad4_props (((rhe (d * 10000)).toNat) % 10000)
    exact ⟨toString ((rhe (d * 10000)).toNat / 10000), pad4 _, rfl, h1, h2, h3⟩

theorem fmt05_shape (n : Nat) :
    (fmt05 n).length = max 5 (toString n).length
    ∧ (fmt05 n = String.mk (List.replicate (5 - (toString n).length) '0') ++ toString n
       ∨ fmt05 n = toString n) := by
  rw [fmt05]
  by_cases h : (toString n).length < 5
  · rw [if_pos h]
    constructor
    · rw [String.length_append]
      rw [show (String.mk (List.replicate (5 - (toString n).length) '0')).length
            = (List.replicate (5 - (toString n).length) '0').length from rfl]
      rw [List.length_replicate]
      omega
    · exact Or.inl rfl
  · rw [if_neg h]
    exact ⟨by omega, Or.inr rfl⟩

theorem filterMap_option_map {α β γ : Type} (l : List α) (o : α → Option γ)
    (g : α → γ → β) (dflt : β) :
    (l.filterMap fun a => (o a).map (g a))
      = (l.filter fun a => (o a).isSome).map (fun a => ((o a).map (g a)).getD dflt) := by
  induction l with
  | nil => rfl
  | cons x xs ih =>
    cases hx : o x <;> simp [List.filterMap_cons, List.filter_cons, hx, ih]

theorem i32cast_facts (n : Nat) :
    i32cast n % 4294967296 = (n : Int) % 4294967296
    ∧ -2147483648 ≤ i32cast n ∧ i32cast n < 2147483648 := by
  rw [i32cast]
  have h1 : n % 4294967296 < 4294967296 := Nat.mod_lt _ (by norm_num)
  have h2 : ((n % 4294967296 : Nat) : Int) = (n : Int) % 4294967296 := by
    omega
  by_cases h : n % 4294967296 < 2147483648
  · rw [if_pos h]
    refine ⟨?_, ?_, ?_⟩ <;> omega
  · rw [if_neg h]
    refine ⟨?_, ?_, ?_⟩ <;> omega

theorem cc_cases (j : RPath) (e : String) :
    check_and_correct_extension j e = j
    ∨ ∃ s2, check_and_correct_extension j e = ⟨j.absolute, j.comps.dropLast ++ [.normal s2]⟩ := by
  rw [check_and_correct_extension]
  by_cases hx : j.extension = some e
  · left
    rw [if_neg (by simpa using hx)]
  · rw [if_pos hx, RPath.setExtension]
    cases hl : j.comps.getLast? with
    | none => left; rfl
    | some c =>
      cases c with
      | normal s => right; exact ⟨fnSetExt s e, rfl⟩
      | curDir => left; rfl
      | parentDir => left; rfl

theorem cc_join_prefix (root out : RPath) (e : String) (hrel : out.absolute = false)
    (hne : out.comps ≠ []) :
    root.comps <+: (check_and_correct_extension (root.joinPath out) e).comps
    ∧ (check_and_correct_extension (root.joinPath out) e).absolute = root.absolute := by
  have hj : root.joinPath out = ⟨root.absolute, root.comps ++ out.comps⟩ := by
    rw [RPath.joinPath, hrel]
    simp
  rcases cc_cases (root.joinPath out) e with hcase | ⟨s2, hcase⟩
  · rw [hcase, hj]
    exact ⟨List.prefix_append _ _, rfl⟩
  · rw [hcase, hj]
    simp only
    constructor
    · rw [List.dropLast_append_of_ne_nil _ hne, List.append_assoc]
      exact List.prefix_append _ _
    · trivial

theorem m3u8Branch_writes_path (root libPath out : RPath) (filesM : List FileRecord) :
    ∀ fw ∈ (m3u8Branch root libPath (some out) filesM).writes,
      fw.path = check_and_correct_extension (root.joinPath out) "m3u8" := by
  intro fw hfw
  simp only [m3u8Branch] at hfw
  split at hfw <;>
    · simp only [M3U8Result.writes, List.mem_singleton] at hfw
      rw [hfw]

/-- Claim C8: when the format flag selects json or m3u8 but no output path is
supplied, the branch reports the usage error and performs no file creation or
write. -/
theorem C8_no_output_usage_error (root libPath : RPath) (recs : List (Nat × Rat))
    (dser : Rat → String) (files filesM : List FileRecord) :
    jsonBranch root none recs dser files = .usageError
    ∧ (jsonBranch root none recs dser files).writes = []
    ∧ m3u8Branch root libPath none filesM = .usageError
    ∧ (m3u8Branch root libPath none filesM).writes = [] :=
  ⟨rfl, rfl, rfl, rfl⟩

/-- Claim C10: the id handed to the metadata join is the entry's unsigned id
cast with `as i32` — reduced modulo 2^32 and reinterpreted in signed range —
so any id at or above 2^31 is looked up as a different id than the one
retrieved. -/
theorem C10_join_id_cast (recs : List (Nat × Rat)) (n : Nat) (h : 2147483648 ≤ n) :
    joinIds recs = recs.map (fun p => i32cast p.1)
    ∧ i32cast n % 4294967296 = (n : Int) % 4294967296
    ∧ -2147483648 ≤ i32cast n ∧ i32cast n < 2147483648
    ∧ i32cast n ≠ (n : Int) := by
  obtain ⟨h1, h2, h3⟩ := i32cast_facts n
  refine ⟨rfl, h1, h2, h3, ?_⟩
  omega

/-- Witness for C10 at the first id past the signed 32-bit range. -/
theorem C10_witness :
    joinIds [((2147483648 : Nat), (0 : Rat))]
        = [((2147483648 : Nat), (0 : Rat))].map (fun p => i32cast p.1)
    ∧ i32cast 2147483648 % 4294967296 = ((2147483648 : Nat) : Int) % 4294967296
    ∧ -2147483648 ≤ i32cast 2147483648 ∧ i32cast 2147483648 < 2147483648
    ∧ i32cast 2147483648 ≠ ((2147483648 : Nat) : Int) :=
  C10_join_id_cast [((2147483648 : Nat), (0 : Rat))] 2147483648 (by norm_num)

/-- Claim C3: the bytes the json branch writes are the serialization of the
raw ordered (id, distance) sequence — independent of the joined file
metadata — as a JSON array with one two-element record per entry, in the
retriever's order. -/
theorem C3_json_raw_entries (root out : RPath) (recs : List (Nat × Rat))
    (dser : Rat → String) (files files2 : List FileRecord) (w : Bool) (fw : FileWrite)
    (h : jsonBranch root (some out) recs dser files = .ok w fw) :
    jsonBranch root (some out) recs dser files = jsonBranch root (some out) recs dser files2
    ∧ ∃ parts : List String,
        fw.contents = "[" ++ String.intercalate "," parts ++ "]"
        ∧ parts.length = recs.length
        ∧ ∀ k : Nat, parts[k]?
            = (recs[k]?).map fun p => "[" ++ toString p.1 ++ "," ++ dser p.2 ++ "]" := by
  refine ⟨rfl, recs.map (serializePair dser), ?_, by rw [List.length_map], ?_⟩
  · simp only [jsonBranch] at h
    injection h with h1 h2
    rw [← h2]
    rfl
  · intro k
    rw [List.getElem?_map]
    rfl

/-- Witness for C3 on a one-entry recommendation list. -/
theorem C3_witness :
    jsonBranch ⟨true, [.normal "r"]⟩ (some ⟨false, [.normal "o.json"]⟩)
        [(1, (1 : Rat) / 2)] (fun _ => "0.5") []
      = jsonBranch ⟨true, [.normal "r"]⟩ (some ⟨false, [.normal "o.json"]⟩)
        [(1, (1 : Rat) / 2)] (fun _ => "0.5") [⟨3, [], "z"⟩]
    ∧ ∃ parts : List String,
        (FileWrite.mk ⟨true, [.normal "r", .normal "o.json"]⟩ "[[1,0.5]]").contents
          = "[" ++ String.intercalate "," parts ++ "]"
        ∧ parts.length = [(1, (1 : Rat) / 2)].length
        ∧ ∀ k : Nat, parts[k]?
            = ([(1, (1 : Rat) / 2)][k]?).map fun p =>
                "[" ++ toString p.1 ++ "," ++ (fun _ => "0.5") p.2 ++ "]" :=
  C3_json_raw_entries ⟨true, [.normal "r"]⟩ ⟨false, [.normal "o.json"]⟩
    [(1, (1 : Rat) / 2)] (fun _ => "0.5") [] [⟨3, [], "z"⟩] true
    ⟨⟨true, [.normal "r", .normal "o.json"]⟩, "[[1,0.5]]"⟩ (by decide)

/-- Claim C9: for json and m3u8 invocations the supplied output path is
joined onto the canonicalized library root before extension normalization and
file creation, so for a relative output path the written file's path extends
the library root's components. -/
theorem C9_output_joined_to_root (root libPath out : RPath) (recs : List (Nat × Rat))
    (dser : Rat → String) (files filesM : List FileRecord)
    (hrel : out.absolute = false) (hne : out.comps ≠ []) :
    (∀ w fw, jsonBranch root (some out) recs dser files = .ok w fw →
       fw.path = check_and_correct_extension (root.joinPath out) "json"
       ∧ root.comps <+: fw.path.comps ∧ fw.path.absolute = root.absolute)
    ∧ ∀ fw ∈ (m3u8Branch root libPath (some out) filesM).writes,
        fw.path = check_and_correct_extension (root.joinPath out) "m3u8"
        ∧ root.comps <+: fw.path.comps ∧ fw.path.absolute = root.absolute := by
  obtain ⟨hpre, habs⟩ := cc_join_prefix root out "json" hrel hne
  obtain ⟨hpreM, habsM⟩ := cc_join_prefix root out "m3u8" hrel hne
  constructor
  · intro w fw h
    simp only [jsonBranch] at h
    injection h with h1 h2
    rw [← h2]
    exact ⟨rfl, hpre, habs⟩
  · intro fw hfw
    have hp := m3u8Branch_writes_path root libPath out filesM fw hfw
    rw [hp]
    exact ⟨rfl, hpreM, habsM⟩

/-- Witness for C9 with output `sub/o` under root `/r`. -/
theorem C9_witness :
    (∀ w fw, jsonBranch ⟨true, [.normal "r"]⟩ (some ⟨false, [.normal "sub", .normal "o"]⟩)
          [] (fun _ => "") [] = .ok w fw →
       fw.path = check_and_correct_extension
           ((⟨true, [.normal "r"]⟩ : RPath).joinPath ⟨false, [.normal "sub", .normal "o"]⟩) "json"
       ∧ (⟨true, [.normal "r"]⟩ : RPath).comps <+: fw.path.comps
       ∧ fw.path.absolute = (⟨true, [.normal "r"]⟩ : RPath).absolute)
    ∧ ∀ fw ∈ (m3u8Branch ⟨true, [.normal "r"]⟩ ⟨true, [.normal "r"]⟩
          (some ⟨false, [.normal "sub", .normal "o"]⟩) []).writes,
        fw.path = check_and_correct_extension
            ((⟨true, [.normal "r"]⟩ : RPath).joinPath ⟨false, [.normal "sub", .normal "o"]⟩) "m3u8"
        ∧ (⟨true, [.normal "r"]⟩ : RPath).comps <+: fw.path.comps
        ∧ fw.path.absolute = (⟨true, [.normal "r"]⟩ : RPath).absolute :=
  C9_output_joined_to_root ⟨true, [.normal "r"]⟩ ⟨true, [.normal "r"]⟩
    ⟨false, [.normal "sub", .normal "o"]⟩ [] (fun _ => "") [] [] (by decide) (by decide)

/-- Claim C4 (code evaluation at the failing input): with library root `/lib`
and relative output `out.json`, whose extension already is the canonical
`json`, the normalization changes nothing — yet the json branch warns, because
the source compares the root-joined corrected path against the raw supplied
output path (`corrected_path != *output_path`), which differ for every
relative output.  This contradicts the claim's "warning iff the normalization
changed the path". -/
theorem C4_warning_without_correction :
    check_and_correct_extension
        ((⟨true, [.normal "lib"]⟩ : RPath).joinPath ⟨false, [.normal "out.json"]⟩) "json"
      = (⟨true, [.normal "lib"]⟩ : RPath).joinPath ⟨false, [.normal "out.json"]⟩
    ∧ jsonBranch ⟨true, [.normal "lib"]⟩ (some ⟨false, [.normal "out.json"]⟩) []
        (fun _ => "") []
      = .ok true ⟨⟨true, [.normal "lib", .normal "out.json"]⟩, "[]"⟩ :=
  ⟨by decide, by decide⟩

/-- Claim C2 (code evaluation at the failing input): the m3u8 loop runs over
the joined `files` list, so when the metadata join returns the records of the
retrieved entries `[(2, 0.5), (1, 0.9)]` in ascending-id order, the playlist
lines come out as `a.mp3` (id 1) before `b.mp3` (id 2) — not in the
retrieval order the specification promises, which the spec-modelled
`specRetrievalLines` renders. -/
theorem C2_m3u8_join_order :
    m3u8Branch ⟨true, [.normal "r"]⟩ ⟨true, [.normal "r"]⟩ (some ⟨false, [.normal "x.m3u8"]⟩)
        [⟨1, [], "a.mp3"⟩, ⟨2, [], "b.mp3"⟩]
      = .ok true ⟨⟨true, [.normal "r", .normal "x.m3u8"]⟩, "#EXTM3U\na.mp3\nb.mp3\n"⟩
    ∧ "#EXTM3U\n" ++ concatAll (specRetrievalLines [(2, (1 : Rat) / 2), (1, (9 : Rat) / 10)]
          [⟨1, [], "a.mp3"⟩, ⟨2, [], "b.mp3"⟩] ⟨true, [.normal "r"]⟩
          (baseOf ⟨true, [.normal "r"]⟩ ⟨false, [.normal "x.m3u8"]⟩))
      = "#EXTM3U\nb.mp3\na.mp3\n"
    ∧ ("#EXTM3U\na.mp3\nb.mp3\n" : String) ≠ "#EXTM3U\nb.mp3\na.mp3\n" :=
  ⟨by decide, by decide, by decide⟩

/-- Claim C6 (counterexample): at the root path `/` the current extension
(none) differs from `json`, yet the normalizer returns the path unchanged and
the result still does not carry the extension `json` — refuting the claim
that whenever the extensions differ the result is the path with its extension
replaced by the expected one. -/
theorem C6_counterexample :
    (⟨true, []⟩ : RPath).extension ≠ some "json"
    ∧ check_and_correct_extension ⟨true, []⟩ "json" = ⟨true, []⟩
    ∧ (check_and_correct_extension ⟨true, []⟩ "json").extension ≠ some "json" :=
  ⟨by decide, by decide, by decide⟩

theorem nonEmptyNames_getLast {cs : List PathComp} {s : String}
    (h : nonEmptyNames cs = true) (hl : cs.getLast? = some (.normal s)) : s ≠ "" := by
  have hmem : PathComp.normal s ∈ cs := by
    have := List.dropLast_append_getLast? _ hl
    rw [← this]
    simp
  have := (List.all_eq_true.mp h) _ hmem
  simpa using this

/-- Claim C6 (amended): for a path whose normal components are nonempty names
and a nonempty dot-free expected extension, the normalizer returns the path
unchanged when the extension already matches case-sensitively; otherwise, when
the path has a file name it returns the path with that file name's extension
replaced by `e` (same parent components, same absoluteness, resulting
extension exactly `e`), and when the path has no file name (root, or a path
ending in `..` or `.`) it returns the path unchanged.  Pure and total. -/
theorem C6_extension_normalizer (p : RPath) (e : String)
    (hwf : nonEmptyNames p.comps = true) (he : e ≠ "") (hd : '.' ∉ e.toList) :
    (p.extension = some e → check_and_correct_extension p e = p)
    ∧ (p.extension ≠ some e →
        ((p.fileName = none ∧ check_and_correct_extension p e = p)
         ∨ ((check_and_correct_extension p e).absolute = p.absolute
            ∧ (check_and_correct_extension p e).comps.dropLast = p.comps.dropLast
            ∧ (check_and_correct_extension p e).extension = some e))) := by
  constructor
  · intro hx
    rw [check_and_correct_extension, if_neg (by simpa using hx)]
  · intro hx
    rw [check_and_correct_extension, if_pos hx, RPath.setExtension]
    cases hl : p.comps.getLast? with
    | none =>
      left
      exact ⟨by simp [RPath.fileName, hl], rfl⟩
    | some c =>
      cases c with
      | normal s =>
        right
        have hs : s ≠ "" := nonEmptyNames_getLast hwf hl
        refine ⟨rfl, by simp [List.dropLast_concat], ?_⟩
        have hlast : (p.comps.dropLast ++ [PathComp.normal (fnSetExt s e)]).getLast?
            = some (.normal (fnSetExt s e)) := List.getLast?_concat _
        rw [show (RPath.mk p.absolute (p.comps.dropLast ++ [PathComp.normal (fnSetExt s e)])).extension
              = fnExtension (fnSetExt s e) by rw [RPath.extension]; rw [show (RPath.mk p.absolute
                (p.comps.dropLast ++ [PathComp.normal (fnSetExt s e)])).comps
                = p.comps.dropLast ++ [PathComp.normal (fnSetExt s e)] from rfl, hlast]]
        exact fnExtension_setExt s e (toList_ne_nil hs) he hd
      | curDir =>
        left
        exact ⟨by simp [RPath.fileName, hl], rfl⟩
      | parentDir =>
        left
        exact ⟨by simp [RPath.fileName, hl], rfl⟩

/-- Witness for C6 at `/a/b.txt` with extension `json`. -/
theorem C6_witness :
    ((⟨true, [.normal "a", .normal "b.txt"]⟩ : RPath).extension = some "json" →
        check_and_correct_extension ⟨true, [.normal "a", .normal "b.txt"]⟩ "json"
          = ⟨true, [.normal "a", .normal "b.txt"]⟩)
    ∧ ((⟨true, [.normal "a", .normal "b.txt"]⟩ : RPath).extension ≠ some "json" →
        (((⟨true, [.normal "a", .normal "b.txt"]⟩ : RPath).fileName = none
          ∧ check_and_correct_extension ⟨true, [.normal "a", .normal "b.txt"]⟩ "json"
              = ⟨true, [.normal "a", .normal "b.txt"]⟩)
         ∨ ((check_and_correct_extension ⟨true, [.normal "a", .normal "b.txt"]⟩ "json").absolute
              = (⟨true, [.normal "a", .normal "b.txt"]⟩ : RPath).absolute
            ∧ (check_and_correct_extension
                ⟨true, [.normal "a", .normal "b.txt"]⟩ "json").comps.dropLast
              = (⟨true, [.normal "a", .normal "b.txt"]⟩ : RPath).comps.dropLast
            ∧ (check_and_correct_extension
                ⟨true, [.normal "a", .normal "b.txt"]⟩ "json").extension = some "json"))) :=
  C6_extension_normalizer ⟨true, [.normal "a", .normal "b.txt"]⟩ "json"
    (by decide) (by decide) (by decide)

theorem cc_fix_or_ext (p : RPath) (e : String) (hwf : nonEmptyNames p.comps = true)
    (he : e ≠ "") (hd : '.' ∉ e.toList) :
    check_and_correct_extension p e = p
    ∨ (check_and_correct_extension p e).extension = some e := by
  by_cases hx : p.extension = some e
  · left
    rw [check_and_correct_extension, if_neg (by simpa using hx)]
  · rw [check_and_correct_extension, if_pos hx, RPath.setExtension]
    cases hl : p.comps.getLast? with
    | none => left; rfl
    | some c =>
      cases c with
      | normal s =>
        right
        have hs : s ≠ "" := nonEmptyNames_getLast hwf hl
        have hlast : (p.comps.dropLast ++ [PathComp.normal (fnSetExt s e)]).getLast?
            = some (.normal (fnSetExt s e)) := List.getLast?_concat _
        rw [show (RPath.mk p.absolute (p.comps.dropLast ++ [PathComp.normal (fnSetExt s e)])).extension
              = fnExtension (fnSetExt s e) by rw [RPath.extension]; rw [show (RPath.mk p.absolute
                (p.comps.dropLast ++ [PathComp.normal (fnSetExt s e)])).comps
                = p.comps.dropLast ++ [PathComp.normal (fnSetExt s e)] from rfl, hlast]]
        exact fnExtension_setExt s e (toList_ne_nil hs) he hd
      | curDir => left; rfl
      | parentDir => left; rfl

/-- Claim C7 (counterexample): with extension `tar.gz` — which contains a dot —
normalization of the path `a.x` is not idempotent: one pass yields
`a.tar.gz`, whose extension Rust reads as `gz`, so a second pass yields
`a.tar.tar.gz`. -/
theorem C7_counterexample :
    check_and_correct_extension
        (check_and_correct_extension ⟨false, [.normal "a.x"]⟩ "tar.gz") "tar.gz"
      ≠ check_and_correct_extension ⟨false, [.normal "a.x"]⟩ "tar.gz" := by decide

/-- Claim C7 (amended): extension normalization is idempotent for every path
whose normal components are nonempty names, provided the expected extension is
nonempty and contains no dot — matching the extensions the pipeline passes
(`json` and `m3u8`). -/
theorem C7_idempotent (p : RPath) (e : String) (hwf : nonEmptyNames p.comps = true)
    (he : e ≠ "") (hd : '.' ∉ e.toList) :
    check_and_correct_extension (check_and_correct_extension p e) e
      = check_and_correct_extension p e := by
  rcases cc_fix_or_ext p e hwf he hd with h | h
  · rw [h]
    exact h
  · rw [check_and_correct_extension, if_neg (by simpa using h)]

/-- Witness for C7 at `x.txt` with extension `json`. -/
theorem C7_witness :
    check_and_correct_extension
        (check_and_correct_extension ⟨false, [.normal "x.txt"]⟩ "json") "json"
      = check_and_correct_extension ⟨false, [.normal "x.txt"]⟩ "json" :=
  C7_idempotent ⟨false, [.normal "x.txt"]⟩ "json" (by decide) (by decide) (by decide)

/-- Claim C5: in the table branch exactly the recommendation entries with a
matching file record produce a row, in retrieval order; each row carries the
id zero-padded to (at least) five digits, the distance with exactly four
digits after the decimal point, and the absolute path
`library_root/directory/file_name`; entries without a record produce no row,
and the branch writes no file. -/
theorem C5_table_rows (libPath : RPath) (recs : List (Nat × Rat)) (files : List FileRecord)
    (habs : libPath.absolute = true) :
    (tableBranch libPath recs files).2 = []
    ∧ (tableBranch libPath recs files).1
        = (recs.filter fun e => (files.find? fun f => f.id == i32cast e.1).isSome).map
            (fun e => (((files.find? fun f => f.id == i32cast e.1).map fun fi =>
                (fmt05 e.1, fmt4 e.2, (targetOf libPath fi).render))).getD ("", "", ""))
    ∧ ∀ e ∈ recs, ∀ fi, (files.find? fun f => f.id == i32cast e.1) = some fi →
        (fmt05 e.1).length = max 5 (toString e.1).length
        ∧ (∃ a b, fmt4 e.2 = a ++ "." ++ b ∧ b.length = 4
            ∧ (∀ c ∈ b.toList, c.isDigit = true) ∧ '.' ∉ b.toList)
        ∧ ∃ rest, (targetOf libPath fi).render = "/" ++ rest := by
  refine ⟨rfl, ?_, ?_⟩
  · exact filterMap_option_map recs _ _ _
  · intro e _ fi _
    refine ⟨(fmt05_shape e.1).1, fmt4_shape e.2, ?_⟩
    refine ⟨String.intercalate "/" ((targetOf libPath fi).comps.map PathComp.str), ?_⟩
    rw [RPath.render]
    rw [show (targetOf libPath fi).absolute = true by simp [targetOf, RPath.joinComps, habs]]
    simp

/-- Witness for C5: library root `/r`, one retrieved entry with a matching
record. -/
theorem C5_witness :
    (tableBranch ⟨true, [.normal "r"]⟩ [(1, (1 : Rat) / 2)] [⟨1, [], "a.mp3"⟩]).2 = []
    ∧ (tableBranch ⟨true, [.normal "r"]⟩ [(1, (1 : Rat) / 2)] [⟨1, [], "a.mp3"⟩]).1
        = ([(1, (1 : Rat) / 2)].filter fun e =>
            (([(⟨1, [], "a.mp3"⟩ : FileRecord)]).find? fun f => f.id == i32cast e.1).isSome).map
            (fun e => ((([(⟨1, [], "a.mp3"⟩ : FileRecord)].find? fun f =>
                  f.id == i32cast e.1).map fun fi =>
                (fmt05 e.1, fmt4 e.2, (targetOf ⟨true, [.normal "r"]⟩ fi).render))).getD
                ("", "", ""))
    ∧ ∀ e ∈ [(1, (1 : Rat) / 2)], ∀ fi,
        ([(⟨1, [], "a.mp3"⟩ : FileRecord)].find? fun f => f.id == i32cast e.1) = some fi →
        (fmt05 e.1).length = max 5 (toString e.1).length
        ∧ (∃ a b, fmt4 e.2 = a ++ "." ++ b ∧ b.length = 4
            ∧ (∀ c ∈ b.toList, c.isDigit = true) ∧ '.' ∉ b.toList)
        ∧ ∃ rest, (targetOf ⟨true, [.normal "r"]⟩ fi).render = "/" ++ rest :=
  C5_table_rows ⟨true, [.normal "r"]⟩ [(1, (1 : Rat) / 2)] [⟨1, [], "a.mp3"⟩] (by decide)

/-- Claim C1 (counterexample): with the library root `/lib` and output
`../pl/mix.m3u8`, the playlist write aborts — `pathdiff`'s lexical walk meets
the `..` inside the output parent `/lib/../pl` — even though a relative path
from the output parent to the target `/lib/dir/f.mp3` does exist
(`../lib/dir/f.mp3` resolves to it).  This refutes "the write aborts with an
error only when no relative path can be computed". -/
theorem C1_counterexample :
    m3u8Branch ⟨true, [.normal "lib"]⟩ ⟨true, [.normal "lib"]⟩
        (some ⟨false, [.parentDir, .normal "pl", .normal "mix.m3u8"]⟩)
        [⟨1, [.normal "dir"], "f.mp3"⟩]
      = .aborted true
          ⟨⟨true, [.normal "lib", .parentDir, .normal "pl", .normal "mix.m3u8"]⟩, "#EXTM3U\n"⟩
    ∧ diff_paths (targetOf ⟨true, [.normal "lib"]⟩ ⟨1, [.normal "dir"], "f.mp3"⟩)
        (baseOf ⟨true, [.normal "lib"]⟩ ⟨false, [.parentDir, .normal "pl", .normal "mix.m3u8"]⟩)
      = none
    ∧ ∃ r : List PathComp,
        normAbs ((baseOf ⟨true, [.normal "lib"]⟩
            ⟨false, [.parentDir, .normal "pl", .normal "mix.m3u8"]⟩).comps ++ r)
          = normAbs (targetOf ⟨true, [.normal "lib"]⟩ ⟨1, [.normal "dir"], "f.mp3"⟩).comps :=
  ⟨by decide, by decide,
   ⟨[.parentDir, .normal "lib", .normal "dir", .normal "f.mp3"], by decide⟩⟩

/-- Claim C1 (amended): when the library path is absolute and the library,
output and record-directory component lists are dot-free (the shape a
canonicalized root produces), the m3u8 branch succeeds, and every emitted
line is `pathdiff`'s relative path from the output file's own parent
directory to `library_path/directory/file_name`; resolving that relative path
against the output parent reproduces the target exactly.  (Outside this
shape the branch can abort even though a relative path exists — see the
counterexample.) -/
theorem C1_m3u8_relativization (canonRoot libPath out : RPath) (files : List FileRecord)
    (hroot : canonRoot.absolute = true) (hnroot : normalOnly canonRoot.comps = true)
    (hlib : libPath.absolute = true) (hnlib : normalOnly libPath.comps = true)
    (hnout : normalOnly out.comps = true) (hne : out.comps ≠ [])
    (hdirs : ∀ f ∈ files, normalOnly f.directory = true) :
    m3u8Branch canonRoot libPath (some out) files
      = .ok (decide (check_and_correct_extension (canonRoot.joinPath out) "m3u8" ≠ out))
          ⟨check_and_correct_extension (canonRoot.joinPath out) "m3u8",
           "#EXTM3U\n" ++ concatAll (files.map fun f =>
             RPath.render ⟨false, diffNormals (targetOf libPath f).comps
               (baseOf canonRoot out).comps⟩ ++ "\n")⟩
    ∧ ∀ f ∈ files,
        diff_paths (targetOf libPath f) (baseOf canonRoot out)
          = some ⟨false, diffNormals (targetOf libPath f).comps (baseOf canonRoot out).comps⟩
        ∧ normAbs ((baseOf canonRoot out).comps
              ++ diffNormals (targetOf libPath f).comps (baseOf canonRoot out).comps)
            = (targetOf libPath f).comps := by
  obtain ⟨hbase, hnbase⟩ := baseOf_eq canonRoot out hroot hnroot hnout hne
  have hbabs : (baseOf canonRoot out).absolute = true := by rw [hbase]
  have hnb : normalOnly (baseOf canonRoot out).comps = true := by rw [hbase]; exact hnbase
  constructor
  · have hbody := m3u8Body_ok libPath (baseOf canonRoot out) hlib hbabs hnb files hdirs
    simp only [m3u8Branch]
    rw [show (check_and_correct_extension (canonRoot.joinPath out) "m3u8").parent
          = baseOf canonRoot out from rfl]
    rw [hbody]
    simp
  · intro f hf
    have habsT : (targetOf libPath f).absolute = true := by
      simp [targetOf, RPath.joinComps, hlib]
    have hnT : normalOnly (targetOf libPath f).comps = true :=
      targetOf_normalOnly _ _ hnlib (hdirs f hf)
    refine ⟨diff_paths_normals _ _ habsT hbabs hnb, ?_⟩
    rw [normAbs, normGo_append, normGo_normals [] hnb]
    simpa using diffNormals_rejoin (baseOf canonRoot out).comps (targetOf libPath f).comps hnT hnb

/-- Witness for C1: root `/r` handed both canonically and as the library
path, output `pl/mix.m3u8`, one record in directory `d`. -/
theorem C1_witness :
    m3u8Branch ⟨true, [.normal "r"]⟩ ⟨true, [.normal "r"]⟩
        (some ⟨false, [.normal "pl", .normal "mix.m3u8"]⟩) [⟨1, [.normal "d"], "s.mp3"⟩]
      = .ok (decide (check_and_correct_extension
            ((⟨true, [.normal "r"]⟩ : RPath).joinPath
              ⟨false, [.normal "pl", .normal "mix.m3u8"]⟩) "m3u8"
          ≠ (⟨false, [.normal "pl", .normal "mix.m3u8"]⟩ : RPath)))
          ⟨check_and_correct_extension
             ((⟨true, [.normal "r"]⟩ : RPath).joinPath
               ⟨false, [.normal "pl", .normal "mix.m3u8"]⟩) "m3u8",
           "#EXTM3U\n" ++ concatAll (([⟨1, [.normal "d"], "s.mp3"⟩] : List FileRecord).map fun f =>
             RPath.render ⟨false, diffNormals (targetOf ⟨true, [.normal "r"]⟩ f).comps
               (baseOf ⟨true, [.normal "r"]⟩
                 ⟨false, [.normal "pl", .normal "mix.m3u8"]⟩).comps⟩ ++ "\n")⟩
    ∧ ∀ f ∈ ([⟨1, [.normal "d"], "s.mp3"⟩] : List FileRecord),
        diff_paths (targetOf ⟨true, [.normal "r"]⟩ f)
            (baseOf ⟨true, [.normal "r"]⟩ ⟨false, [.normal "pl", .normal "mix.m3u8"]⟩)
          = some ⟨false, diffNormals (targetOf ⟨true, [.normal "r"]⟩ f).comps
              (baseOf ⟨true, [.normal "r"]⟩
                ⟨false, [.normal "pl", .normal "mix.m3u8"]⟩).comps⟩
        ∧ normAbs ((baseOf ⟨true, [.normal "r"]⟩
              ⟨false, [.normal "pl", .normal "mix.m3u8"]⟩).comps
              ++ diffNormals (targetOf ⟨true, [.normal "r"]⟩ f).comps
                  (baseOf ⟨true, [.normal "r"]⟩
                    ⟨false, [.normal "pl", .normal "mix.m3u8"]⟩).comps)
            = (targetOf ⟨true, [.normal "r"]⟩ f).comps :=
  C1_m3u8_relativization ⟨true, [.normal "r"]⟩ ⟨true, [.normal "r"]⟩
    ⟨false, [.normal "pl", .normal "mix.m3u8"]⟩ [⟨1, [.normal "d"], "s.mp3"⟩]
    (by decide) (by decide) (by decide) (by decide) (by decide) (by decide) (by decide)
